import Mathlib

-- Verification of the RPC-declaration recognizer of proto-gen-md-diagrams
-- (pkg/proto/rpc_visitor.go). Strings are modelled as lists of characters
-- (`Str`); Go panics are modelled by `Option`/`Res.panic`; the pull-based
-- line scanner is modelled as a `List Line` that the recognizer consumes
-- from the front.

set_option maxRecDepth 4000

abbrev Str := List Char

/-- Converts a string literal to the character-list representation. -/
def str (s : String) : Str := s.data

/-- Modelled from the spec: the token classifying a line's terminator
(statement-end, block-open, block-close, none); the constants `Semicolon`,
`OpenBrace`, `CloseBrace` of the repository are not under src/. -/
inductive Token where
  | none
  | semicolon
  | openBrace
  | closeBrace
deriving DecidableEq, Repr

/-- Modelled from the spec: a `Line` record of the external scanner, carrying
its raw text (Go field `Syntax`, renamed `stx` since `syntax` is a Lean
keyword), an optional trailing comment, and its terminator token. -/
structure Line where
  stx : Str
  comment : Str
  token : Token
deriving DecidableEq, Repr

/-- Modelled from the spec: a `Parameter` has a streaming flag and a type
name; `NewParameter` is not under src/. -/
structure Parameter where
  streaming : Bool
  typeName : Str
deriving DecidableEq, Repr

/-- Modelled from the spec: an `RpcOption` has a scope path, an option name,
a reserved option index (always empty), and a raw body. -/
structure RpcOption where
  scopePath : Str
  optionName : Str
  optionIndex : Str
  optionBody : Str
deriving DecidableEq, Repr

/-- Modelled from the spec: an `Rpc` entity; field `namespace` is renamed
`ns` since `namespace` is a Lean keyword. -/
structure Rpc where
  ns : Str
  name : Str
  comment : Str
  inputParameters : List Parameter
  outputParameters : List Parameter
  options : List RpcOption
deriving DecidableEq, Repr

/-- Modelled from the spec: `NewRpc` creates an Rpc with empty parameter and
option lists. -/
def NewRpc (ns name comment : Str) : Rpc :=
  ⟨ns, name, comment, [], [], []⟩

/-- Modelled from the spec: `NewParameter`. -/
def NewParameter (streaming : Bool) (typeName : Str) : Parameter :=
  ⟨streaming, typeName⟩

/-- Modelled from the spec: `NewRpcOption`. -/
def NewRpcOption (scopePath optionName optionIndex optionBody : Str) : RpcOption :=
  ⟨scopePath, optionName, optionIndex, optionBody⟩

/-- Modelled from the spec: `AddInputParameter` appends in declaration
order. -/
def AddInputParameter (r : Rpc) (p : Parameter) : Rpc :=
  { r with inputParameters := r.inputParameters ++ [p] }

/-- Modelled from the spec: `AddReturnParameter` appends in declaration
order. -/
def AddReturnParameter (r : Rpc) (p : Parameter) : Rpc :=
  { r with outputParameters := r.outputParameters ++ [p] }

/-- Modelled from the spec: `AddRpcOption` appends. -/
def AddRpcOption (r : Rpc) (o : RpcOption) : Rpc :=
  { r with options := r.options ++ [o] }

/-- Modelled from the spec: the period separator constant. -/
def Period : Str := ['.']

/-- Modelled from the spec: the comma separator constant (used as the
single-character separator of `strings.Split`). -/
def Comma : Char := ','

/-- Modelled from the spec: the space constant (used as the single-character
needle of `strings.Index`). -/
def Space : Char := ' '

/-- Modelled from the spec: `Join(Period, namespace, name)` forms the scope
path `namespace + "." + name`. -/
def Join (sep a b : Str) : Str := a ++ sep ++ b

-- Character classes.

/-- Whitespace as recognized by Go `strings.TrimSpace` (`unicode.IsSpace`),
restricted to the Latin-1 range. -/
def isGoSpace (c : Char) : Bool :=
  c = ' ' || c = '\t' || c = '\n' || c = '\x0b' || c = '\x0c' || c = '\r' ||
  c = '\x85' || c = '\xa0'

/-- Whitespace of the RE2 character class `\s`, namely tab, newline, form
feed, carriage return and space. -/
def isRegexSpace (c : Char) : Bool :=
  c = '\t' || c = '\n' || c = '\x0c' || c = '\r' || c = ' '

/-- Word characters of the RE2 character class `\w`. -/
def isWordChar (c : Char) : Bool :=
  ('a' ≤ c && c ≤ 'z') || ('A' ≤ c && c ≤ 'Z') || ('0' ≤ c && c ≤ '9') || c = '_'

/-- Characters matched by the RE2 class `[^)]`. -/
def notCloseParen (c : Char) : Bool :=
  if c = ')' then false else true

/-- Characters matched by RE2 `.` (anything but newline). -/
def notNewline (c : Char) : Bool :=
  if c = '\n' then false else true

-- Go string helpers.

/-- Go `strings.HasPrefix s pre`. -/
def goStartsWith : Str → Str → Bool
  | _, [] => true
  | [], _ :: _ => false
  | c :: s, p :: ps => if c = p then goStartsWith s ps else false

/-- Go `strings.Index s (single-character needle)`: index of the first
occurrence, `-1` when absent. -/
def goIndexChar : Str → Char → Int
  | [], _ => -1
  | c :: rest, t =>
    if c = t then 0
    else if goIndexChar rest t = -1 then -1 else goIndexChar rest t + 1

/-- Go slice expression `s[i:j]`: `none` models the out-of-range panic. -/
def goSlice (s : Str) (i j : Int) : Option Str :=
  if 0 ≤ i ∧ i ≤ j ∧ j ≤ (s.length : Int) then
    some ((s.take j.toNat).drop i.toNat)
  else none

/-- Go `strings.Split s (single-character separator)`. -/
def splitOnChar (sep : Char) : Str → List Str
  | [] => [[]]
  | c :: rest =>
    if c = sep then [] :: splitOnChar sep rest
    else (c :: (splitOnChar sep rest).headD []) :: (splitOnChar sep rest).tail

/-- Go `strings.TrimSpace`. -/
def TrimSpace (s : Str) : Str :=
  ((s.dropWhile isGoSpace).reverse.dropWhile isGoSpace).reverse

/-- Go `strings.Contains s sub` for list needles: substring test. -/
def hasSub : Str → Str → Bool
  | [], sub => sub.isEmpty
  | c :: rest, sub => goStartsWith (c :: rest) sub || hasSub rest sub

-- Keyword constants, written as explicit character lists so that symbolic
-- proofs can unfold them.

def rpcKw : Str := ['r', 'p', 'c']

def messageKw : Str := ['m', 'e', 's', 's', 'a', 'g', 'e']

def serviceKw : Str := ['s', 'e', 'r', 'v', 'i', 'c', 'e']

def optionKw : Str := ['o', 'p', 't', 'i', 'o', 'n']

def streamKw : Str := ['s', 't', 'r', 'e', 'a', 'm']

def returnsKw : Str := ['r', 'e', 't', 'u', 'r', 'n', 's']

-- The matcher for
-- RpcLinePattern = rpc\s+(\w+)\s*\(\s*([^)]+)\s*\)\s+returns\s*\(\s*([^)]+)\s*\)(.*)
-- compiled by Go's regexp package (leftmost match, Perl-style greedy
-- alternation order). Because the adjacent pieces of this pattern use
-- pairwise disjoint character classes, the backtracking search is
-- deterministic and is implemented directly below.

/-- The four capture groups of `RpcLinePattern`. -/
structure Groups where
  g1 : Str
  g2 : Str
  g3 : Str
  g4 : Str
deriving DecidableEq, Repr

/-- Matches a literal piece of the pattern. -/
def expectStr (pre s : Str) : Option Str :=
  if goStartsWith s pre then some (s.drop pre.length) else none

/-- Matches a single literal character of the pattern. -/
def expectChar (c : Char) : Str → Option Str
  | [] => none
  | x :: rest => if x = c then some rest else none

/-- Matches a `\s+` or `\w+` piece: the maximal nonempty run. -/
def takeWhile1 (p : Char → Bool) (s : Str) : Option (Str × Str) :=
  if (s.takeWhile p).isEmpty then none else some (s.takeWhile p, s.dropWhile p)

/-- The capture of `\s*([^)]+)\s*\)` on the text `T` between a `(` and the
first subsequent `)`: the greedy-first backtracking search strips the
leading whitespace of `T` unless `T` is pure whitespace, in which case the
capture is the last character of `T`. -/
def parenCapture (T : Str) : Str :=
  T.drop (min (T.takeWhile isRegexSpace).length (T.length - 1))

/-- Matches `\s*([^)]+)\s*\)`: finds the first `)`, requires a nonempty
stretch before it, and yields the capture plus the text after the `)`. -/
def parenGroup (s : Str) : Option (Str × Str) :=
  match s.dropWhile notCloseParen with
  | [] => none
  | _ :: rest =>
    if (s.takeWhile notCloseParen).isEmpty then none
    else some (parenCapture (s.takeWhile notCloseParen), rest)

/-- Attempts `RpcLinePattern` anchored at the head of `s`, returning the
four capture groups. -/
def matchAt (s : Str) : Option Groups := do
  let s1 ← expectStr rpcKw s
  let (_, s2) ← takeWhile1 isRegexSpace s1
  let (g1, s3) ← takeWhile1 isWordChar s2
  let s4 := s3.dropWhile isRegexSpace
  let s5 ← expectChar '(' s4
  let (g2, s6) ← parenGroup s5
  let (_, s7) ← takeWhile1 isRegexSpace s6
  let s8 ← expectStr returnsKw s7
  let s9 := s8.dropWhile isRegexSpace
  let s10 ← expectChar '(' s9
  let (g3, s11) ← parenGroup s10
  some ⟨g1, g2, g3, s11.takeWhile notNewline⟩

/-- Go `FindStringSubmatch`: tries `matchAt` at each position, leftmost
first; `none` models the `nil` result. -/
def findFrom : Str → Option Groups
  | [] => none
  | c :: rest =>
    match matchAt (c :: rest) with
    | some g => some g
    | none => findFrom rest

/-- `CanVisit` of `RpcVisitor`: whether `RpcLineMatcher` matches the line's
text. -/
def CanVisit (line : Line) : Bool :=
  (findFrom line.stx).isSome

-- Parameter parsing (ParseInArgs / ParseReturnArgs).

/-- The body of the loops of `ParseInArgs`/`ParseReturnArgs` for one
comma-separated segment: `none` models the Go panic of
`i[strings.Index(i, Space):]` when the index is `-1`. -/
def parseParam (i : Str) : Option Parameter :=
  if goStartsWith i streamKw then
    if goIndexChar i Space < 0 then none
    else some (NewParameter true (TrimSpace (i.drop (goIndexChar i Space).toNat)))
  else some (NewParameter false (TrimSpace i))

/-- Folds `parseParam` over the split segments, appending with `add`. -/
def addParams (add : Rpc → Parameter → Rpc) : List Str → Rpc → Option Rpc
  | [], r => some r
  | seg :: rest, r =>
    match parseParam seg with
    | none => none
    | some p => addParams add rest (add r p)

/-- `ParseInArgs`, applied to the raw text of capture group 2. -/
def ParseInArgs (raw : Str) (r : Rpc) : Option Rpc :=
  addParams AddInputParameter (splitOnChar Comma raw) r

/-- `ParseReturnArgs`, applied to the raw text of capture group 3. -/
def ParseReturnArgs (raw : Str) (r : Rpc) : Option Rpc :=
  addParams AddReturnParameter (splitOnChar Comma raw) r

/-- The declaration-parsing prelude of `Visit`: match the line, build the
Rpc, parse both argument lists; `none` models a panic (nil submatch
dereference or a parameter-slice panic). -/
def parseDecl (inl : Line) (ns : Str) : Option Rpc := do
  let g ← findFrom inl.stx
  let out ← ParseInArgs g.g2 (NewRpc ns g.g1 inl.comment)
  ParseReturnArgs g.g3 out

-- Option-block scanning.

/-- The option-name extraction
`line.Syntax[strings.Index(line.Syntax, "(")+1 : strings.Index(line.Syntax, ")")]`;
`none` models the slice panic when a parenthesis is missing or the bounds
are inverted. -/
def extractOptionName (s : Str) : Option Str :=
  goSlice s (goIndexChar s '(' + 1) (goIndexChar s ')')

/-- The initial option-body accumulator and brace counter taken from the
option line itself: Go splits on `=` and trims the second field. -/
def initOption (s : Str) : Str × Int :=
  if s.contains '=' then
    match splitOnChar '=' s with
    | _ :: p1 :: _ =>
      let b := TrimSpace p1
      (b, (b.count '{' : Int) - (b.count '}' : Int))
    | _ => ([], 0)
  else ([], 0)

/-- Result of the inner option-accumulation loop. -/
inductive AccRes where
  | fin (body : Str) (rest : List Line)
  | deleg (body : Str) (pulled : Line) (rest : List Line)
deriving DecidableEq, Repr

/-- The inner accumulation loop of `Visit`: pulls lines until the option is
complete, a bare `;` line is seen, a new top-level construct is pulled
(delegation), or the source is exhausted. -/
def accumulate : List Line → Str → Int → AccRes
  | [], body, _ => .fin body []
  | l :: rest, body, bc =>
    if goStartsWith (TrimSpace l.stx) rpcKw ||
       goStartsWith (TrimSpace l.stx) messageKw ||
       goStartsWith (TrimSpace l.stx) serviceKw then
      .deleg body l rest
    else if TrimSpace l.stx = [';'] then .fin body rest
    else
      if l.token = Token.semicolon ∧
         bc + (l.stx.count '{' : Int) - (l.stx.count '}' : Int) = 0 then
        .fin (body ++ l.stx) rest
      else
        accumulate rest (body ++ l.stx)
          (bc + (l.stx.count '{' : Int) - (l.stx.count '}' : Int))

/-- Appends the accumulated option when its trimmed body is nonempty. -/
def flushOption (out : Rpc) (ns optName body : Str) : Rpc :=
  if 0 < (TrimSpace body).length then
    AddRpcOption out (NewRpcOption (Join Period ns out.name) optName [] body)
  else out

/-- Result of a `Visit` call: a returned Rpc together with the lines left in
the shared scanner, a propagated Go panic, or fuel exhaustion (which, as
proved below, never occurs at the fuel used by `Visit`). -/
inductive Res where
  | ok (r : Rpc) (rest : List Line)
  | panic
  | timeout
deriving DecidableEq, Repr

/-- The outer block-scan loop of `Visit`, with the delegate recognizer's
`Visit` call inlined (the delegate parses the pulled line and, unless that
line is block-less, runs this same loop; its Rpc is discarded while the
shared scanner stays advanced and its panics propagate). Structural
recursion on an explicit fuel keeps the definition computable by the
kernel; fuel at least `lines.length` is proved sufficient below. -/
def scanBlockF : Nat → List Line → Rpc → Str → Res
  | 0, lines, out, _ => if lines.isEmpty then .ok out [] else .timeout
  | _ + 1, [], out, _ => .ok out []
  | n + 1, l :: rest, out, ns =>
    if l.token = Token.closeBrace then .ok out rest
    else if goStartsWith l.stx optionKw then
      match extractOptionName l.stx with
      | none => .panic
      | some optName =>
        match accumulate rest (initOption l.stx).1 (initOption l.stx).2 with
        | .fin body rest2 =>
          scanBlockF n rest2 (flushOption out ns optName body) ns
        | .deleg body pulled rest2 =>
          let out2 := flushOption out ns optName body
          if CanVisit pulled then
            match parseDecl pulled ns with
            | none => .panic
            | some d =>
              if pulled.token = Token.semicolon then .ok out2 rest2
              else
                match scanBlockF n rest2 d ns with
                | .ok _ rest3 => .ok out2 rest3
                | .panic => .panic
                | .timeout => .timeout
          else .ok out2 rest2
    else scanBlockF n rest out ns

/-- `Visit` with explicit fuel for the block scan. -/
def visitF (fuel : Nat) (lines : List Line) (inl : Line) (ns : Str) : Res :=
  match parseDecl inl ns with
  | none => .panic
  | some out =>
    if inl.token = Token.semicolon then .ok out lines
    else scanBlockF fuel lines out ns

/-- `Visit` of `RpcVisitor`: recognizes the matched line `inl`, consuming
option lines from the shared scanner `lines`. -/
def Visit (lines : List Line) (inl : Line) (ns : Str) : Res :=
  visitF lines.length lines inl ns

-- Specification-side definitions, used to compare the code against the
-- spec's words.

/-- Negated single-character test, used to express "up to the first/second
occurrence" decompositions. -/
def neChar (sep c : Char) : Bool :=
  if c = sep then false else true

/-- Follows the spec's words for claim C4: "the text after the first `=`
becomes the initial option-body accumulator" (trimmed), with the brace
counter taken over that text. -/
def specInitOption (s : Str) : Str × Int :=
  let b := TrimSpace ((s.dropWhile (neChar '=')).drop 1)
  (b, (b.count '{' : Int) - (b.count '}' : Int))

/-- The amended description for claim C4: the initial accumulator is the
trimmed text strictly between the first and the second `=` of the line
(the whole tail after the first `=` when no second `=` exists). -/
def specInitOptionBetween (s : Str) : Str × Int :=
  let b := TrimSpace (((s.dropWhile (neChar '=')).drop 1).takeWhile (neChar '='))
  (b, (b.count '{' : Int) - (b.count '}' : Int))

/-- Follows the spec's words for claim C10: the text is, in order, the
keyword `rpc`, whitespace, a name, optional whitespace, a parenthesized
nonempty input clause, whitespace, the keyword `returns`, optional
whitespace, and a parenthesized nonempty output clause. -/
def DeclShape (s : Str) : Prop :=
  ∃ ws1 name ws2 inA ws3 ws4 outA,
    s = rpcKw ++ (ws1 ++ (name ++ (ws2 ++ ('(' :: (inA ++ (')' :: (ws3 ++
        (returnsKw ++ (ws4 ++ ('(' :: (outA ++ [')']))))))))))) ∧
    ws1 ≠ [] ∧ (∀ c ∈ ws1, isRegexSpace c = true) ∧
    name ≠ [] ∧ (∀ c ∈ name, isWordChar c = true) ∧
    (∀ c ∈ ws2, isRegexSpace c = true) ∧
    inA ≠ [] ∧ (∀ c ∈ inA, c ≠ ')') ∧
    ws3 ≠ [] ∧ (∀ c ∈ ws3, isRegexSpace c = true) ∧
    (∀ c ∈ ws4, isRegexSpace c = true) ∧
    outA ≠ [] ∧ (∀ c ∈ outA, c ≠ ')')

-- Character-class lemmas.

theorem goSpace_cases {c : Char} (h : isGoSpace c = true) :
    c = ' ' ∨ c = '\t' ∨ c = '\n' ∨ c = '\x0b' ∨ c = '\x0c' ∨ c = '\r' ∨
    c = '\x85' ∨ c = '\xa0' := by
  simp only [isGoSpace, Bool.or_eq_true, decide_eq_true_eq] at h
  tauto

theorem regexSpace_cases {c : Char} (h : isRegexSpace c = true) :
    c = '\t' ∨ c = '\n' ∨ c = '\x0c' ∨ c = '\r' ∨ c = ' ' := by
  simp only [isRegexSpace, Bool.or_eq_true, decide_eq_true_eq] at h
  tauto

theorem word_not_goSpace {c : Char} (h : isWordChar c = true) :
    isGoSpace c = false := by
  cases hs : isGoSpace c with
  | false => rfl
  | true =>
    rcases goSpace_cases hs with h1 | h1 | h1 | h1 | h1 | h1 | h1 | h1 <;>
      (subst h1; exact absurd h (by decide))

theorem word_not_regexSpace {c : Char} (h : isWordChar c = true) :
    isRegexSpace c = false := by
  cases hs : isRegexSpace c with
  | false => rfl
  | true =>
    rcases regexSpace_cases hs with h1 | h1 | h1 | h1 | h1 <;>
      (subst h1; exact absurd h (by decide))

theorem regexSpace_not_word {c : Char} (h : isRegexSpace c = true) :
    isWordChar c = false := by
  cases hw : isWordChar c with
  | false => rfl
  | true => rw [word_not_regexSpace hw] at h; exact absurd h (by decide)

theorem notCloseParen_iff {c : Char} : notCloseParen c = true ↔ c ≠ ')' := by
  unfold notCloseParen
  by_cases h : c = ')' <;> simp [h]

theorem word_notCloseParen {c : Char} (h : isWordChar c = true) :
    notCloseParen c = true := by
  rw [notCloseParen_iff]
  intro he
  subst he
  exact absurd h (by decide)

theorem word_ne_comma {c : Char} (h : isWordChar c = true) : c ≠ ',' := by
  intro he
  subst he
  exact absurd h (by decide)

-- List helper lemmas.

theorem tw_mem {p : Char → Bool} : ∀ {l : Str} {c : Char},
    c ∈ l.takeWhile p → p c = true := by
  intro l
  induction l with
  | nil => intro c h; simp [List.takeWhile] at h
  | cons x xs ih =>
    intro c h
    by_cases hx : p x
    · rw [List.takeWhile_cons_of_pos hx] at h
      rcases List.mem_cons.1 h with h1 | h1
      · subst h1; exact hx
      · exact ih h1
    · rw [List.takeWhile_cons_of_neg hx] at h
      simp at h

theorem dropWhile_of_all_false {p : Char → Bool} {l : Str}
    (h : ∀ c ∈ l, p c = false) : l.dropWhile p = l := by
  cases l with
  | nil => rfl
  | cons x xs =>
    rw [List.dropWhile_cons_of_neg]
    simp [h x (List.mem_cons_self x xs)]

theorem takeWhile_all_append {p : Char → Bool} :
    ∀ (xs ys : Str), (∀ x ∈ xs, p x = true) →
    (∀ y, ys.head? = some y → p y = false) →
    (xs ++ ys).takeWhile p = xs ∧ (xs ++ ys).dropWhile p = ys := by
  intro xs
  induction xs with
  | nil =>
    intro ys _ h2
    cases ys with
    | nil => simp
    | cons y ys' =>
      have hy : p y = false := h2 y rfl
      simp [List.takeWhile_cons_of_neg, List.dropWhile_cons_of_neg, hy]
  | cons x xs' ih =>
    intro ys h1 h2
    have hx : p x = true := h1 x (List.mem_cons_self x xs')
    have hrest := ih ys (fun a ha => h1 a (List.mem_cons_of_mem x ha)) h2
    constructor
    · rw [List.cons_append, List.takeWhile_cons_of_pos hx, hrest.1]
    · rw [List.cons_append, List.dropWhile_cons_of_pos hx, hrest.2]

theorem goStartsWith_append : ∀ (p t : Str), goStartsWith (p ++ t) p = true := by
  intro p
  induction p with
  | nil => intro t; cases t <;> rfl
  | cons c cs ih => intro t; simpa [goStartsWith] using ih t

theorem goStartsWith_some : ∀ {s p : Str}, goStartsWith s p = true →
    ∃ t, s = p ++ t := by
  intro s
  induction s with
  | nil =>
    intro p h
    cases p with
    | nil => exact ⟨[], rfl⟩
    | cons _ _ => simp [goStartsWith] at h
  | cons c cs ih =>
    intro p h
    cases p with
    | nil => exact ⟨c :: cs, rfl⟩
    | cons q qs =>
      unfold goStartsWith at h
      split at h
      · next he =>
        obtain ⟨t, ht⟩ := ih h
        exact ⟨t, by rw [he, List.cons_append, ht]⟩
      · exact absurd h (by simp)

theorem split_no_sep {sep : Char} : ∀ {s : Str}, (∀ c ∈ s, c ≠ sep) →
    splitOnChar sep s = [s] := by
  intro s
  induction s with
  | nil => intro _; rfl
  | cons c cs ih =>
    intro h
    have hrec := ih fun a ha => h a (List.mem_cons_of_mem c ha)
    simp only [splitOnChar, if_neg (h c (List.mem_cons_self c cs)), hrec]
    rfl

theorem split_decomp (sep : Char) : ∀ (s : Str),
    splitOnChar sep s = s.takeWhile (neChar sep) ::
      (if s.contains sep then
        splitOnChar sep ((s.dropWhile (neChar sep)).drop 1) else []) := by
  intro s
  induction s with
  | nil => simp [splitOnChar]
  | cons c cs ih =>
    by_cases hc : c = sep
    · subst hc
      have hne : neChar c c = false := by simp [neChar]
      simp only [splitOnChar, if_pos rfl]
      rw [List.takeWhile_cons_of_neg (by simp [hne]),
        List.dropWhile_cons_of_neg (by simp [hne])]
      simp [List.contains_cons]
    · have hne : neChar sep c = true := by simp [neChar, hc]
      have hcont : (c :: cs).contains sep = cs.contains sep := by
        have hsc : (sep == c) = false := beq_eq_false_iff_ne.mpr (Ne.symm hc)
        simp only [List.contains_cons, hsc, Bool.false_or]
      simp only [splitOnChar, if_neg hc, ih]
      rw [List.takeWhile_cons_of_pos (by simp [hne]),
        List.dropWhile_cons_of_pos (by simp [hne]), hcont]
      simp

theorem trim_of_no_space {s : Str} (h : ∀ c ∈ s, isGoSpace c = false) :
    TrimSpace s = s := by
  unfold TrimSpace
  rw [dropWhile_of_all_false h]
  rw [dropWhile_of_all_false (fun c hc => h c (List.mem_reverse.1 hc))]
  exact List.reverse_reverse s

-- Matcher lemmas.

theorem head?_mem {l : Str} {y : Char} (h : l.head? = some y) : y ∈ l := by
  cases l with
  | nil => simp at h
  | cons c cs => simp at h; subst h; exact List.mem_cons_self c cs

theorem head?_append_left {xs ys : Str} (h : xs ≠ []) :
    (xs ++ ys).head? = xs.head? := by
  cases xs with
  | nil => exact absurd rfl h
  | cons c cs => rfl

theorem expectStr_append (p t : Str) : expectStr p (p ++ t) = some t := by
  simp [expectStr, goStartsWith_append, List.drop_left]

theorem expectStr_some {p s r : Str} (h : expectStr p s = some r) :
    s = p ++ r := by
  unfold expectStr at h
  split at h
  · next hg =>
    obtain ⟨t, ht⟩ := goStartsWith_some hg
    have : s.drop p.length = t := by rw [ht, List.drop_left]
    rw [this] at h
    rw [ht, Option.some_inj.1 h]
  · exact absurd h (by simp)

theorem expectChar_some {c : Char} {s r : Str} (h : expectChar c s = some r) :
    s = c :: r := by
  cases s with
  | nil => exact absurd h (by simp [expectChar])
  | cons x rest =>
    by_cases hx : x = c
    · subst hx
      simp [expectChar] at h
      rw [h]
    · simp [expectChar, hx] at h

theorem takeWhile1_exact {p : Char → Bool} {xs ys : Str} (hne : xs ≠ [])
    (hall : ∀ x ∈ xs, p x = true)
    (hy : ∀ y, ys.head? = some y → p y = false) :
    takeWhile1 p (xs ++ ys) = some (xs, ys) := by
  obtain ⟨htw, hdw⟩ := takeWhile_all_append xs ys hall hy
  simp [takeWhile1, htw, hdw, hne]

theorem takeWhile1_some {p : Char → Bool} {s a b : Str}
    (h : takeWhile1 p s = some (a, b)) :
    s = a ++ b ∧ a ≠ [] ∧ ∀ c ∈ a, p c = true := by
  unfold takeWhile1 at h
  split at h
  · exact absurd h (by simp)
  · next hne =>
    obtain ⟨h1, h2⟩ := Prod.mk.injEq .. ▸ Option.some_inj.1 h
    subst h1; subst h2
    refine ⟨(List.takeWhile_append_dropWhile ..).symm, ?_, fun c hc => tw_mem hc⟩
    simpa [List.isEmpty_iff] using hne

theorem dropWhile_head_false {p : Char → Bool} :
    ∀ (l : Str) {x : Char} {xs : Str}, l.dropWhile p = x :: xs → p x = false := by
  intro l
  induction l with
  | nil => intro x xs h; simp [List.dropWhile] at h
  | cons c cs ih =>
    intro x xs h
    by_cases hc : p c
    · rw [List.dropWhile_cons_of_pos hc] at h
      exact ih h
    · rw [List.dropWhile_cons_of_neg hc] at h
      obtain ⟨h1, _⟩ := List.cons.injEq .. ▸ h
      rw [← h1]
      exact Bool.of_not_eq_true hc

theorem parenGroup_exact {T rest : Str} (hT : T ≠ [])
    (hTs : ∀ c ∈ T, notCloseParen c = true) :
    parenGroup (T ++ ')' :: rest) = some (parenCapture T, rest) := by
  have hcp : notCloseParen ')' = false := by decide
  obtain ⟨htw, hdw⟩ := takeWhile_all_append T (')' :: rest) hTs
    (by intro y hy; simp only [List.head?_cons, Option.some_inj] at hy; rw [← hy]; exact hcp)
  simp [parenGroup, htw, hdw, hT]

theorem parenGroup_some {s g2 rest : Str} (h : parenGroup s = some (g2, rest)) :
    ∃ T, s = T ++ ')' :: rest ∧ T ≠ [] ∧ (∀ c ∈ T, c ≠ ')') ∧
      g2 = parenCapture T := by
  unfold parenGroup at h
  split at h
  · exact absurd h (by simp)
  · next x xs hdw =>
    split at h
    · exact absurd h (by simp)
    · next hne =>
      obtain ⟨h1, h2⟩ := Prod.mk.injEq .. ▸ Option.some_inj.1 h
      have hx : x = ')' := by
        have hxf := dropWhile_head_false s hdw
        unfold notCloseParen at hxf
        by_cases hc : x = ')'
        · exact hc
        · rw [if_neg hc] at hxf; exact absurd hxf (by simp)
      refine ⟨s.takeWhile notCloseParen, ?_, ?_, ?_, h1.symm⟩
      · have hta : s.takeWhile notCloseParen ++ s.dropWhile notCloseParen = s :=
          List.takeWhile_append_dropWhile ..
        conv_lhs => rw [← hta]
        rw [hdw, hx, h2]
      · simpa [List.isEmpty_iff] using hne
      · intro c hc
        exact notCloseParen_iff.1 (tw_mem hc)

theorem matchAt_shape (ws1 name ws2 inA ws3 ws4 outA post : Str)
    (hw1 : ws1 ≠ []) (hw1s : ∀ c ∈ ws1, isRegexSpace c = true)
    (hn : name ≠ []) (hns : ∀ c ∈ name, isWordChar c = true)
    (hw2s : ∀ c ∈ ws2, isRegexSpace c = true)
    (hin : inA ≠ []) (hins : ∀ c ∈ inA, notCloseParen c = true)
    (hw3 : ws3 ≠ []) (hw3s : ∀ c ∈ ws3, isRegexSpace c = true)
    (hw4s : ∀ c ∈ ws4, isRegexSpace c = true)
    (hout : outA ≠ []) (houts : ∀ c ∈ outA, notCloseParen c = true) :
    matchAt (rpcKw ++ (ws1 ++ (name ++ (ws2 ++ ('(' :: (inA ++ (')' :: (ws3 ++ (returnsKw ++ (ws4 ++ ('(' :: (outA ++ (')' :: post))))))))))))) =
      some ⟨name, parenCapture inA, parenCapture outA, post.takeWhile notNewline⟩ := by
  set E0 : Str := ')' :: post with hE0
  set E1 : Str := outA ++ E0 with hE1
  set E2 : Str := '(' :: E1 with hE2
  set E3 : Str := ws4 ++ E2 with hE3
  set E4 : Str := returnsKw ++ E3 with hE4
  set E5 : Str := ws3 ++ E4 with hE5
  set E6 : Str := ')' :: E5 with hE6
  set E7 : Str := inA ++ E6 with hE7
  set E8 : Str := '(' :: E7 with hE8
  set E9 : Str := ws2 ++ E8 with hE9
  set E10 : Str := name ++ E9 with hE10
  set E11 : Str := ws1 ++ E10 with hE11
  have h1 : expectStr rpcKw (rpcKw ++ E11) = some E11 := expectStr_append rpcKw E11
  have h2 : takeWhile1 isRegexSpace E11 = some (ws1, E10) := by
    rw [hE11]
    refine takeWhile1_exact hw1 hw1s ?_
    intro y hy
    rw [hE10, head?_append_left hn] at hy
    exact word_not_regexSpace (hns y (head?_mem hy))
  have h3 : takeWhile1 isWordChar E10 = some (name, E9) := by
    rw [hE10]
    refine takeWhile1_exact hn hns ?_
    intro y hy
    rw [hE9] at hy
    cases ws2 with
    | nil =>
      rw [List.nil_append, hE8] at hy
      simp only [List.head?_cons, Option.some_inj] at hy
      rw [← hy]; decide
    | cons w ws2' =>
      rw [head?_append_left (by simp)] at hy
      simp only [List.head?_cons, Option.some_inj] at hy
      rw [← hy]
      exact regexSpace_not_word (hw2s w (List.mem_cons_self w ws2'))
  have h4 : E9.dropWhile isRegexSpace = E8 := by
    rw [hE9]
    refine (takeWhile_all_append ws2 E8 hw2s ?_).2
    intro y hy
    rw [hE8] at hy
    simp only [List.head?_cons, Option.some_inj] at hy
    rw [← hy]; decide
  have h5 : expectChar '(' E8 = some E7 := by rw [hE8]; simp [expectChar]
  have h6 : parenGroup E7 = some (parenCapture inA, E5) := by
    rw [hE7, hE6]
    exact parenGroup_exact hin hins
  have h7 : takeWhile1 isRegexSpace E5 = some (ws3, E4) := by
    rw [hE5]
    refine takeWhile1_exact hw3 hw3s ?_
    intro y hy
    rw [hE4, head?_append_left (by simp [returnsKw])] at hy
    simp only [returnsKw, List.head?_cons, Option.some_inj] at hy
    rw [← hy]; decide
  have h8 : expectStr returnsKw E4 = some E3 := by
    rw [hE4]
    exact expectStr_append returnsKw E3
  have h9 : E3.dropWhile isRegexSpace = E2 := by
    rw [hE3]
    refine (takeWhile_all_append ws4 E2 hw4s ?_).2
    intro y hy
    rw [hE2] at hy
    simp only [List.head?_cons, Option.some_inj] at hy
    rw [← hy]; decide
  have h10 : expectChar '(' E2 = some E1 := by rw [hE2]; simp [expectChar]
  have h11 : parenGroup E1 = some (parenCapture outA, post) := by
    rw [hE1, hE0]
    exact parenGroup_exact hout houts
  simp only [matchAt, h1, h2, h3, h4, h5, h6, h7, h8, h9, h10, h11,
    Option.bind_eq_bind, Option.some_bind]

theorem matchAt_none_of_nil : matchAt ([] : Str) = none := by rfl

theorem matchAt_sound {s : Str} {g : Groups} (h : matchAt s = some g) :
    ∃ mid post, s = mid ++ post ∧ DeclShape mid := by
  cases c1 : expectStr rpcKw s with
  | none =>
    rw [show matchAt s = none from by simp [matchAt, c1]] at h
    exact absurd h (by simp)
  | some s1 =>
    cases c2 : takeWhile1 isRegexSpace s1 with
    | none =>
      rw [show matchAt s = none from by simp [matchAt, c1, c2]] at h
      exact absurd h (by simp)
    | some pr2 =>
      obtain ⟨ws1, s2⟩ := pr2
      cases c3 : takeWhile1 isWordChar s2 with
      | none =>
        rw [show matchAt s = none from by simp [matchAt, c1, c2, c3]] at h
        exact absurd h (by simp)
      | some pr3 =>
        obtain ⟨nm, s3⟩ := pr3
        cases c5 : expectChar '(' (s3.dropWhile isRegexSpace) with
        | none =>
          rw [show matchAt s = none from by simp [matchAt, c1, c2, c3, c5]] at h
          exact absurd h (by simp)
        | some s5 =>
          cases c6 : parenGroup s5 with
          | none =>
            rw [show matchAt s = none from by simp [matchAt, c1, c2, c3, c5, c6]] at h
            exact absurd h (by simp)
          | some pr6 =>
            obtain ⟨g2v, s6⟩ := pr6
            cases c7 : takeWhile1 isRegexSpace s6 with
            | none =>
              rw [show matchAt s = none from by simp [matchAt, c1, c2, c3, c5, c6, c7]] at h
              exact absurd h (by simp)
            | some pr7 =>
              obtain ⟨ws3, s7⟩ := pr7
              cases c8 : expectStr returnsKw s7 with
              | none =>
                rw [show matchAt s = none from by simp [matchAt, c1, c2, c3, c5, c6, c7, c8]] at h
                exact absurd h (by simp)
              | some s8 =>
                cases c10 : expectChar '(' (s8.dropWhile isRegexSpace) with
                | none =>
                  rw [show matchAt s = none from by simp [matchAt, c1, c2, c3, c5, c6, c7, c8, c10]] at h
                  exact absurd h (by simp)
                | some s10 =>
                  cases c11 : parenGroup s10 with
                  | none =>
                    rw [show matchAt s = none from by simp [matchAt, c1, c2, c3, c5, c6, c7, c8, c10, c11]] at h
                    exact absurd h (by simp)
                  | some pr11 =>
                    obtain ⟨g3v, s11⟩ := pr11
                    obtain ⟨e1, en, e2⟩ := takeWhile1_some c2
                    obtain ⟨f1, fn, f2⟩ := takeWhile1_some c3
                    obtain ⟨TI, ti1, ti2, ti3, _⟩ := parenGroup_some c6
                    obtain ⟨w1, wn, w2⟩ := takeWhile1_some c7
                    obtain ⟨TO, to1, to2, to3, _⟩ := parenGroup_some c11
                    have hs : s = rpcKw ++ s1 := expectStr_some c1
                    have hs3 : s3 = s3.takeWhile isRegexSpace ++ s3.dropWhile isRegexSpace :=
                      (List.takeWhile_append_dropWhile ..).symm
                    have hs5 : s3.dropWhile isRegexSpace = '(' :: s5 := expectChar_some c5
                    have hs8 : s7 = returnsKw ++ s8 := expectStr_some c8
                    have hs8b : s8 = s8.takeWhile isRegexSpace ++ s8.dropWhile isRegexSpace :=
                      (List.takeWhile_append_dropWhile ..).symm
                    have hs10 : s8.dropWhile isRegexSpace = '(' :: s10 := expectChar_some c10
                    refine ⟨rpcKw ++ (ws1 ++ (nm ++ ((s3.takeWhile isRegexSpace) ++
                      ('(' :: (TI ++ (')' :: (ws3 ++ (returnsKw ++ ((s8.takeWhile isRegexSpace) ++
                      ('(' :: (TO ++ [')']))))))))))), s11, ?_, ?_⟩
                    · rw [hs, e1, f1]
                      conv_lhs => rw [hs3, hs5, ti1, w1, hs8, hs8b, hs10, to1]
                      simp [List.append_assoc]
                    · refine ⟨ws1, nm, s3.takeWhile isRegexSpace, TI, ws3, s8.takeWhile isRegexSpace, TO,
                        rfl, en, e2, fn, f2, fun c hc => tw_mem hc, ti2, ti3, wn, w2,
                        fun c hc => tw_mem hc, to2, to3⟩

theorem findFrom_isSome {pre s' : Str} {g : Groups} (h : matchAt s' = some g) :
    (findFrom (pre ++ s')).isSome = true := by
  induction pre with
  | nil =>
    cases hs : s' with
    | nil => rw [hs] at h; exact absurd (matchAt_none_of_nil ▸ h) (by simp)
    | cons c rest =>
      rw [hs] at h
      simp [findFrom, h]
  | cons p pre' ih =>
    rw [List.cons_append]
    cases hma : matchAt (p :: (pre' ++ s')) with
    | some g' => simp [findFrom, hma]
    | none => simpa [findFrom, hma] using ih

theorem findFrom_sound : ∀ {s : Str} {g : Groups}, findFrom s = some g →
    ∃ pre s', s = pre ++ s' ∧ matchAt s' = some g := by
  intro s
  induction s with
  | nil => intro g h; simp [findFrom] at h
  | cons c rest ih =>
    intro g h
    unfold findFrom at h
    cases hma : matchAt (c :: rest) with
    | some g' =>
      rw [hma] at h
      exact ⟨[], c :: rest, rfl, by rw [hma, Option.some_inj.1 h]⟩
    | none =>
      rw [hma] at h
      obtain ⟨pre, s', hp, hm⟩ := ih h
      exact ⟨c :: pre, s', by rw [List.cons_append, hp], hm⟩

-- Scanner-loop lemmas.

theorem acc_fin_len : ∀ (ls : List Line) (b : Str) (bc : Int) {body : Str}
    {rest : List Line}, accumulate ls b bc = .fin body rest →
    rest.length ≤ ls.length := by
  intro ls
  induction ls with
  | nil =>
    intro b bc body rest h
    simp only [accumulate] at h
    obtain ⟨-, rfl⟩ := AccRes.fin.injEq .. ▸ h
    exact Nat.le_refl _
  | cons l ls' ih =>
    intro b bc body rest h
    simp only [accumulate] at h
    split at h
    · exact absurd h (by simp)
    · split at h
      · obtain ⟨-, rfl⟩ := AccRes.fin.injEq .. ▸ h
        exact Nat.le_succ _
      · split at h
        · obtain ⟨-, rfl⟩ := AccRes.fin.injEq .. ▸ h
          exact Nat.le_succ _
        · exact Nat.le_trans (ih _ _ h) (Nat.le_succ _)

theorem acc_deleg_len : ∀ (ls : List Line) (b : Str) (bc : Int) {body : Str}
    {pulled : Line} {rest : List Line}, accumulate ls b bc = .deleg body pulled rest →
    rest.length < ls.length := by
  intro ls
  induction ls with
  | nil =>
    intro b bc body pulled rest h
    simp only [accumulate] at h
    exact absurd h (by simp)
  | cons l ls' ih =>
    intro b bc body pulled rest h
    simp only [accumulate] at h
    split at h
    · obtain ⟨-, -, rfl⟩ := AccRes.deleg.injEq .. ▸ h
      exact Nat.lt_succ_self _
    · split at h
      · exact absurd h (by simp)
      · split at h
        · exact absurd h (by simp)
        · exact Nat.lt_trans (ih _ _ h) (Nat.lt_succ_self _)

theorem flush_fields (out : Rpc) (ns optName body : Str) :
    (flushOption out ns optName body).ns = out.ns ∧
    (flushOption out ns optName body).name = out.name ∧
    (flushOption out ns optName body).comment = out.comment ∧
    (flushOption out ns optName body).inputParameters = out.inputParameters ∧
    (flushOption out ns optName body).outputParameters = out.outputParameters := by
  unfold flushOption AddRpcOption
  split <;> simp

theorem flush_options {out : Rpc} {ns optName body : Str} :
    ∀ o ∈ (flushOption out ns optName body).options,
      o ∈ out.options ∨ o.scopePath = Join Period ns out.name := by
  intro o ho
  unfold flushOption AddRpcOption at ho
  split at ho
  · simp only [List.mem_append, List.mem_singleton] at ho
    rcases ho with h1 | h1
    · exact Or.inl h1
    · right; rw [h1]; rfl
  · exact Or.inl ho

theorem scan_preserve : ∀ (fuel : Nat) (lines : List Line) (out : Rpc) (ns : Str)
    {r : Rpc} {rest : List Line}, scanBlockF fuel lines out ns = .ok r rest →
    r.ns = out.ns ∧ r.name = out.name ∧ r.comment = out.comment ∧
    r.inputParameters = out.inputParameters ∧
    r.outputParameters = out.outputParameters := by
  intro fuel
  induction fuel with
  | zero =>
    intro lines out ns r rest h
    simp only [scanBlockF] at h
    split at h
    · obtain ⟨rfl, -⟩ := Res.ok.injEq .. ▸ h
      exact ⟨rfl, rfl, rfl, rfl, rfl⟩
    · exact absurd h (by simp)
  | succ n ih =>
    intro lines out ns r rest h
    cases lines with
    | nil =>
      simp only [scanBlockF] at h
      obtain ⟨rfl, -⟩ := Res.ok.injEq .. ▸ h
      exact ⟨rfl, rfl, rfl, rfl, rfl⟩
    | cons l rest0 =>
      simp only [scanBlockF] at h
      split at h
      · obtain ⟨rfl, -⟩ := Res.ok.injEq .. ▸ h
        exact ⟨rfl, rfl, rfl, rfl, rfl⟩
      · split at h
        · split at h
          · exact absurd h (by simp)
          · next optName hext =>
            split at h
            · next body rest2 hacc =>
              obtain ⟨a1, a2, a3, a4, a5⟩ := ih rest2 (flushOption out ns optName body) ns h
              obtain ⟨b1, b2, b3, b4, b5⟩ := flush_fields out ns optName body
              exact ⟨a1.trans b1, a2.trans b2, a3.trans b3, a4.trans b4, a5.trans b5⟩
            · next body pulled rest2 hacc =>
              split at h
              · split at h
                · exact absurd h (by simp)
                · next d hpd =>
                  split at h
                  · obtain ⟨rfl, -⟩ := Res.ok.injEq .. ▸ h
                    exact flush_fields out ns optName body
                  · split at h
                    · next r3 rest3 hsb =>
                      obtain ⟨rfl, -⟩ := Res.ok.injEq .. ▸ h
                      exact flush_fields out ns optName body
                    · exact absurd h (by simp)
                    · exact absurd h (by simp)
              · obtain ⟨rfl, -⟩ := Res.ok.injEq .. ▸ h
                exact flush_fields out ns optName body
        · exact ih rest0 out ns h

theorem scan_options : ∀ (fuel : Nat) (lines : List Line) (out : Rpc) (ns : Str)
    {r : Rpc} {rest : List Line}, scanBlockF fuel lines out ns = .ok r rest →
    ∀ o ∈ r.options, o ∈ out.options ∨ o.scopePath = Join Period ns out.name := by
  intro fuel
  induction fuel with
  | zero =>
    intro lines out ns r rest h
    simp only [scanBlockF] at h
    split at h
    · obtain ⟨rfl, -⟩ := Res.ok.injEq .. ▸ h
      exact fun o ho => Or.inl ho
    · exact absurd h (by simp)
  | succ n ih =>
    intro lines out ns r rest h
    cases lines with
    | nil =>
      simp only [scanBlockF] at h
      obtain ⟨rfl, -⟩ := Res.ok.injEq .. ▸ h
      exact fun o ho => Or.inl ho
    | cons l rest0 =>
      simp only [scanBlockF] at h
      split at h
      · obtain ⟨rfl, -⟩ := Res.ok.injEq .. ▸ h
        exact fun o ho => Or.inl ho
      · split at h
        · split at h
          · exact absurd h (by simp)
          · next optName hext =>
            split at h
            · next body rest2 hacc =>
              intro o ho
              rcases ih rest2 (flushOption out ns optName body) ns h o ho with h1 | h1
              · rcases flush_options o h1 with h2 | h2
                · exact Or.inl h2
                · exact Or.inr h2
              · right
                rw [h1, (flush_fields out ns optName body).2.1]
            · next body pulled rest2 hacc =>
              split at h
              · split at h
                · exact absurd h (by simp)
                · next d hpd =>
                  split at h
                  · obtain ⟨rfl, -⟩ := Res.ok.injEq .. ▸ h
                    exact fun o ho => flush_options o ho
                  · split at h
                    · next r3 rest3 hsb =>
                      obtain ⟨rfl, -⟩ := Res.ok.injEq .. ▸ h
                      exact fun o ho => flush_options o ho
                    · exact absurd h (by simp)
                    · exact absurd h (by simp)
              · obtain ⟨rfl, -⟩ := Res.ok.injEq .. ▸ h
                exact fun o ho => flush_options o ho
        · exact ih rest0 out ns h

theorem scan_len : ∀ (fuel : Nat) (lines : List Line) (out : Rpc) (ns : Str)
    {r : Rpc} {rest : List Line}, scanBlockF fuel lines out ns = .ok r rest →
    rest.length ≤ lines.length := by
  intro fuel
  induction fuel with
  | zero =>
    intro lines out ns r rest h
    simp only [scanBlockF] at h
    split at h
    · obtain ⟨-, rfl⟩ := Res.ok.injEq .. ▸ h
      exact Nat.zero_le _
    · exact absurd h (by simp)
  | succ n ih =>
    intro lines out ns r rest h
    cases lines with
    | nil =>
      simp only [scanBlockF] at h
      obtain ⟨-, rfl⟩ := Res.ok.injEq .. ▸ h
      exact Nat.zero_le _
    | cons l rest0 =>
      simp only [scanBlockF] at h
      split at h
      · obtain ⟨-, rfl⟩ := Res.ok.injEq .. ▸ h
        exact Nat.le_succ _
      · split at h
        · split at h
          · exact absurd h (by simp)
          · next optName hext =>
            split at h
            · next body rest2 hacc =>
              have h1 := ih rest2 (flushOption out ns optName body) ns h
              have h2 := acc_fin_len rest0 (initOption l.stx).1 (initOption l.stx).2 hacc
              exact Nat.le_trans (Nat.le_trans h1 h2) (Nat.le_succ _)
            · next body pulled rest2 hacc =>
              have h2 := acc_deleg_len rest0 (initOption l.stx).1 (initOption l.stx).2 hacc
              split at h
              · split at h
                · exact absurd h (by simp)
                · next d hpd =>
                  split at h
                  · obtain ⟨-, rfl⟩ := Res.ok.injEq .. ▸ h
                    exact Nat.le_succ_of_le (Nat.le_of_lt h2)
                  · split at h
                    · next r3 rest3 hsb =>
                      obtain ⟨-, rfl⟩ := Res.ok.injEq .. ▸ h
                      have h3 := ih rest2 d ns hsb
                      exact Nat.le_succ_of_le (Nat.le_of_lt (Nat.lt_of_le_of_lt h3 h2))
                    · exact absurd h (by simp)
                    · exact absurd h (by simp)
              · obtain ⟨-, rfl⟩ := Res.ok.injEq .. ▸ h
                exact Nat.le_succ_of_le (Nat.le_of_lt h2)
        · exact Nat.le_succ_of_le (ih rest0 out ns h)

theorem scanGood : ∀ (fuel : Nat) (lines : List Line) (out : Rpc) (ns : Str),
    lines.length ≤ fuel → scanBlockF fuel lines out ns ≠ .timeout := by
  intro fuel
  induction fuel with
  | zero =>
    intro lines out ns hlen
    have : lines = [] := List.length_eq_zero.1 (Nat.le_zero.1 hlen)
    subst this
    simp [scanBlockF]
  | succ n ih =>
    intro lines out ns hlen
    cases lines with
    | nil => simp [scanBlockF]
    | cons l rest0 =>
      have hr0 : rest0.length ≤ n := Nat.lt_succ_iff.1 hlen
      simp only [scanBlockF]
      split
      · simp
      · split
        · split
          · simp
          · next optName hext =>
            split
            · next body rest2 hacc =>
              have h2 := acc_fin_len rest0 (initOption l.stx).1 (initOption l.stx).2 hacc
              exact ih rest2 (flushOption out ns optName body) ns (Nat.le_trans h2 hr0)
            · next body pulled rest2 hacc =>
              have h2 := acc_deleg_len rest0 (initOption l.stx).1 (initOption l.stx).2 hacc
              have hr2 : rest2.length ≤ n := Nat.le_trans (Nat.le_of_lt h2) hr0
              split
              · split
                · simp
                · next d hpd =>
                  split
                  · simp
                  · cases hsb : scanBlockF n rest2 d ns with
                    | ok r3 rest3 => simp
                    | panic => simp
                    | timeout => exact absurd hsb (ih rest2 d ns hr2)
              · simp
        · exact ih rest0 out ns hr0

-- Declaration-parsing lemmas.

theorem addParams_pres (add : Rpc → Parameter → Rpc)
    (hadd : ∀ r p, (add r p).options = r.options ∧ (add r p).ns = r.ns ∧
      (add r p).name = r.name) :
    ∀ (segs : List Str) (r : Rpc) {out : Rpc}, addParams add segs r = some out →
    out.options = r.options ∧ out.ns = r.ns ∧ out.name = r.name := by
  intro segs
  induction segs with
  | nil =>
    intro r out h
    simp only [addParams, Option.some_inj] at h
    rw [← h]
    exact ⟨rfl, rfl, rfl⟩
  | cons seg rest ih =>
    intro r out h
    simp only [addParams] at h
    split at h
    · exact absurd h (by simp)
    · next p hp =>
      obtain ⟨a1, a2, a3⟩ := ih (add r p) h
      obtain ⟨b1, b2, b3⟩ := hadd r p
      exact ⟨a1.trans b1, a2.trans b2, a3.trans b3⟩

theorem parseDecl_shape {inl : Line} {ns : Str} {out : Rpc}
    (h : parseDecl inl ns = some out) :
    out.options = [] ∧ out.ns = ns := by
  unfold parseDecl at h
  simp only [Option.bind_eq_bind, bind, Option.bind] at h
  split at h
  · exact absurd h (by simp)
  · next g hg =>
    dsimp only at h
    split at h
    · exact absurd h (by simp)
    · next mid hmid =>
      have h1 := addParams_pres AddInputParameter
        (fun r p => ⟨rfl, rfl, rfl⟩) _ _ hmid
      have h2 := addParams_pres AddReturnParameter
        (fun r p => ⟨rfl, rfl, rfl⟩) _ _ h
      refine ⟨h2.1.trans h1.1, h2.2.1.trans h1.2.1⟩

-- Parameter-parsing lemmas.

theorem parenCapture_no_space {A : Str} (hA : A ≠ [])
    (h : ∀ c ∈ A, isRegexSpace c = false) : parenCapture A = A := by
  cases A with
  | nil => exact absurd rfl hA
  | cons a as =>
    unfold parenCapture
    rw [List.takeWhile_cons_of_neg (by simp [h a (List.mem_cons_self a as)])]
    simp

theorem trim_cons_space {A : Str} (h : ∀ c ∈ A, isGoSpace c = false) :
    TrimSpace (' ' :: A) = A := by
  unfold TrimSpace
  rw [List.dropWhile_cons_of_pos (by decide), dropWhile_of_all_false h]
  rw [dropWhile_of_all_false (fun c hc => h c (List.mem_reverse.1 hc))]
  exact List.reverse_reverse A

theorem parseParam_word {A : Str} (hA : ∀ c ∈ A, isGoSpace c = false)
    (hs : goStartsWith A streamKw = false) :
    parseParam A = some (NewParameter false A) := by
  unfold parseParam
  rw [hs]
  simp [trim_of_no_space hA]

theorem parseParam_stream {A : Str} (hA : ∀ c ∈ A, isGoSpace c = false) :
    parseParam (streamKw ++ (' ' :: A)) = some (NewParameter true A) := by
  have h1 : goStartsWith (streamKw ++ (' ' :: A)) streamKw = true :=
    goStartsWith_append streamKw (' ' :: A)
  have h2 : goIndexChar (streamKw ++ (' ' :: A)) Space = 6 := rfl
  unfold parseParam
  rw [h1, if_pos rfl, h2]
  rw [if_neg (by norm_num)]
  have h3 : (streamKw ++ (' ' :: A)).drop (6 : Int).toNat = ' ' :: A := rfl
  rw [h3, trim_cons_space hA]

theorem ParseInArgs_word {A : Str} (r : Rpc) (hA2 : ∀ c ∈ A, isWordChar c = true)
    (hs : goStartsWith A streamKw = false) :
    ParseInArgs A r = some (AddInputParameter r (NewParameter false A)) := by
  have hsplit : splitOnChar Comma A = [A] :=
    split_no_sep (fun c hc => word_ne_comma (hA2 c hc))
  have hp : parseParam A = some (NewParameter false A) :=
    parseParam_word (fun c hc => word_not_goSpace (hA2 c hc)) hs
  simp [ParseInArgs, hsplit, addParams, hp]

theorem ParseReturnArgs_word {A : Str} (r : Rpc) (hA2 : ∀ c ∈ A, isWordChar c = true)
    (hs : goStartsWith A streamKw = false) :
    ParseReturnArgs A r = some (AddReturnParameter r (NewParameter false A)) := by
  have hsplit : splitOnChar Comma A = [A] :=
    split_no_sep (fun c hc => word_ne_comma (hA2 c hc))
  have hp : parseParam A = some (NewParameter false A) :=
    parseParam_word (fun c hc => word_not_goSpace (hA2 c hc)) hs
  simp [ParseReturnArgs, hsplit, addParams, hp]

theorem ParseInArgs_stream {A : Str} (r : Rpc) (hA2 : ∀ c ∈ A, isWordChar c = true) :
    ParseInArgs (streamKw ++ (' ' :: A)) r =
      some (AddInputParameter r (NewParameter true A)) := by
  have hsplit : splitOnChar Comma (streamKw ++ (' ' :: A)) = [streamKw ++ (' ' :: A)] := by
    refine split_no_sep ?_
    intro c hc
    rcases List.mem_append.1 hc with h1 | h1
    · exact (by decide : ∀ x ∈ streamKw, x ≠ ',') c h1
    · rcases List.mem_cons.1 h1 with h | h
      · subst h; decide
      · exact word_ne_comma (hA2 c h)
  have hp := parseParam_stream (fun c hc => word_not_goSpace (hA2 c hc))
  unfold ParseInArgs
  rw [hsplit]
  simp only [addParams]
  rw [hp]

-- Symbolic evaluation of the declaration prelude on canonical lines.

theorem parseDecl_plain (name A B ns comment : Str) (token : Token)
    (hn1 : name ≠ []) (hn2 : ∀ c ∈ name, isWordChar c = true)
    (hA1 : A ≠ []) (hA2 : ∀ c ∈ A, isWordChar c = true)
    (hAs : goStartsWith A streamKw = false)
    (hB1 : B ≠ []) (hB2 : ∀ c ∈ B, isWordChar c = true)
    (hBs : goStartsWith B streamKw = false) (post : Str) :
    parseDecl ⟨rpcKw ++ ([' '] ++ (name ++ ([] ++ ('(' :: (A ++ (')' :: ([' '] ++
        (returnsKw ++ ([' '] ++ ('(' :: (B ++ (')' :: post)))))))))))), comment, token⟩ ns =
      some ⟨ns, name, comment, [NewParameter false A], [NewParameter false B], []⟩ := by
  have hm := matchAt_shape [' '] name [] A [' '] [' '] B post
    (by simp) (by intro c hc; simp only [List.mem_singleton] at hc; subst hc; decide)
    hn1 hn2 (by simp)
    hA1 (fun c hc => word_notCloseParen (hA2 c hc))
    (by simp) (by intro c hc; simp only [List.mem_singleton] at hc; subst hc; decide)
    (by intro c hc; simp only [List.mem_singleton] at hc; subst hc; decide)
    hB1 (fun c hc => word_notCloseParen (hB2 c hc))
  have hfind : findFrom (rpcKw ++ ([' '] ++ (name ++ ([] ++ ('(' :: (A ++ (')' :: ([' '] ++
      (returnsKw ++ ([' '] ++ ('(' :: (B ++ (')' :: post))))))))))))) =
      some ⟨name, parenCapture A, parenCapture B, post.takeWhile notNewline⟩ := by
    rw [show rpcKw ++ ([' '] ++ (name ++ ([] ++ ('(' :: (A ++ (')' :: ([' '] ++
      (returnsKw ++ ([' '] ++ ('(' :: (B ++ (')' :: post)))))))))))) =
      'r' :: 'p' :: 'c' :: ([' '] ++ (name ++ ([] ++ ('(' :: (A ++ (')' :: ([' '] ++
      (returnsKw ++ ([' '] ++ ('(' :: (B ++ (')' :: post)))))))))))) from rfl] at hm ⊢
    simp only [findFrom]
    rw [hm]
  have hcapA : parenCapture A = A :=
    parenCapture_no_space hA1 (fun c hc => word_not_regexSpace (hA2 c hc))
  have hcapB : parenCapture B = B :=
    parenCapture_no_space hB1 (fun c hc => word_not_regexSpace (hB2 c hc))
  unfold parseDecl
  rw [hfind]
  simp only [Option.bind_eq_bind, Option.some_bind, hcapA, hcapB]
  rw [ParseInArgs_word _ hA2 hAs]
  simp only [Option.some_bind]
  rw [ParseReturnArgs_word _ hB2 hBs]
  rfl

/-- Claim C6: a well-formed block-less declaration
`rpc Name(A) returns (B);` (statement-end token, no block) makes `Visit`
return immediately, pulling no lines: one non-streaming input parameter of
type `A`, one non-streaming output parameter of type `B`, no options, and
the line source is left untouched. -/
theorem rpc_visitor_c6 (name A B ns comment : Str) (lines : List Line)
    (hn1 : name ≠ []) (hn2 : ∀ c ∈ name, isWordChar c = true)
    (hA1 : A ≠ []) (hA2 : ∀ c ∈ A, isWordChar c = true)
    (hAs : goStartsWith A streamKw = false)
    (hB1 : B ≠ []) (hB2 : ∀ c ∈ B, isWordChar c = true)
    (hBs : goStartsWith B streamKw = false) :
    Visit lines ⟨rpcKw ++ ([' '] ++ (name ++ ([] ++ ('(' :: (A ++ (')' :: ([' '] ++
        (returnsKw ++ ([' '] ++ ('(' :: (B ++ (')' :: [';'])))))))))))), comment,
        Token.semicolon⟩ ns =
      .ok ⟨ns, name, comment, [NewParameter false A], [NewParameter false B], []⟩
        lines := by
  unfold Visit visitF
  rw [parseDecl_plain name A B ns comment Token.semicolon hn1 hn2 hA1 hA2 hAs hB1 hB2 hBs [';']]
  rfl

theorem parenCapture_head {a : Char} {as : Str} (h : isRegexSpace a = false) :
    parenCapture (a :: as) = a :: as := by
  unfold parenCapture
  rw [List.takeWhile_cons_of_neg (by simp [h])]
  simp

theorem parseDecl_stream (name A B ns comment : Str) (token : Token)
    (hn1 : name ≠ []) (hn2 : ∀ c ∈ name, isWordChar c = true)
    (hA1 : A ≠ []) (hA2 : ∀ c ∈ A, isWordChar c = true)
    (hB1 : B ≠ []) (hB2 : ∀ c ∈ B, isWordChar c = true)
    (hBs : goStartsWith B streamKw = false) (post : Str) :
    parseDecl ⟨rpcKw ++ ([' '] ++ (name ++ (([] : Str) ++ ('(' :: ((streamKw ++ (' ' :: A)) ++ (')' :: ([' '] ++ (returnsKw ++ ([' '] ++ ('(' :: (B ++ (')' :: post)))))))))))), comment, token⟩ ns =
      some ⟨ns, name, comment, [NewParameter true A], [NewParameter false B], []⟩ := by
  have hins : ∀ c ∈ streamKw ++ (' ' :: A), notCloseParen c = true := by
    intro c hc
    rcases List.mem_append.1 hc with h1 | h1
    · exact (by decide : ∀ x ∈ streamKw, notCloseParen x = true) c h1
    · rcases List.mem_cons.1 h1 with h | h
      · subst h; decide
      · exact word_notCloseParen (hA2 c h)
  have hm := matchAt_shape [' '] name [] (streamKw ++ (' ' :: A)) [' '] [' '] B post
    (by simp) (by intro c hc; simp only [List.mem_singleton] at hc; subst hc; decide)
    hn1 hn2 (by simp)
    (by simp [streamKw]) hins
    (by simp) (by intro c hc; simp only [List.mem_singleton] at hc; subst hc; decide)
    (by intro c hc; simp only [List.mem_singleton] at hc; subst hc; decide)
    hB1 (fun c hc => word_notCloseParen (hB2 c hc))
  have hfind : findFrom (rpcKw ++ ([' '] ++ (name ++ (([] : Str) ++ ('(' :: ((streamKw ++ (' ' :: A)) ++ (')' :: ([' '] ++ (returnsKw ++ ([' '] ++ ('(' :: (B ++ (')' :: post))))))))))))) =
      some ⟨name, parenCapture (streamKw ++ (' ' :: A)), parenCapture B,
        post.takeWhile notNewline⟩ := by
    rw [show rpcKw ++ ([' '] ++ (name ++ (([] : Str) ++ ('(' :: ((streamKw ++ (' ' :: A)) ++ (')' :: ([' '] ++ (returnsKw ++ ([' '] ++ ('(' :: (B ++ (')' :: post)))))))))))) =
      'r' :: 'p' :: 'c' :: ([' '] ++ (name ++ (([] : Str) ++ ('(' :: ((streamKw ++ (' ' :: A)) ++ (')' :: ([' '] ++ (returnsKw ++ ([' '] ++ ('(' :: (B ++ (')' :: post)))))))))))) from rfl] at hm ⊢
    simp only [findFrom]
    rw [hm]
  have hcapA : parenCapture (streamKw ++ (' ' :: A)) = streamKw ++ (' ' :: A) :=
    parenCapture_head (by decide)
  have hcapB : parenCapture B = B :=
    parenCapture_no_space hB1 (fun c hc => word_not_regexSpace (hB2 c hc))
  unfold parseDecl
  rw [hfind]
  simp only [Option.bind_eq_bind, Option.some_bind, hcapA, hcapB]
  rw [ParseInArgs_stream _ hA2]
  simp only [Option.some_bind]
  rw [ParseReturnArgs_word _ hB2 hBs]
  rfl

/-- Claim C7: for the declaration `rpc Name(stream A) returns (B) {` the
resulting Rpc's sole input parameter is streaming with type name `A` (the
keyword `stream` and the separating whitespace stripped), whatever option
lines follow in the block. -/
theorem rpc_visitor_c7 (name A B ns comment : Str)
    (hn1 : name ≠ []) (hn2 : ∀ c ∈ name, isWordChar c = true)
    (hA1 : A ≠ []) (hA2 : ∀ c ∈ A, isWordChar c = true)
    (hB1 : B ≠ []) (hB2 : ∀ c ∈ B, isWordChar c = true)
    (hBs : goStartsWith B streamKw = false) :
    ∀ (lines : List Line) (r : Rpc) (rest : List Line),
      Visit lines ⟨rpcKw ++ ([' '] ++ (name ++ (([] : Str) ++ ('(' :: ((streamKw ++ (' ' :: A)) ++ (')' :: ([' '] ++ (returnsKw ++ ([' '] ++ ('(' :: (B ++ (')' :: [' ', '\x7b'])))))))))))), comment, Token.openBrace⟩ ns = .ok r rest →
      r.inputParameters = [NewParameter true A] := by
  intro lines r rest h
  unfold Visit visitF at h
  rw [parseDecl_stream name A B ns comment Token.openBrace hn1 hn2 hA1 hA2 hB1 hB2 hBs
    [' ', '\x7b']] at h
  have h2 : scanBlockF lines.length lines
      ⟨ns, name, comment, [NewParameter true A], [NewParameter false B], []⟩ ns =
      .ok r rest := h
  have hpres := scan_preserve lines.length lines _ ns h2
  rw [hpres.2.2.2.1]

/-- Claim C8: every RpcOption of a returned Rpc carries the scope path
`namespace + "." + rpc.name`, for every namespace including the empty one. -/
theorem rpc_visitor_c8 (lines : List Line) (inl : Line) (ns : Str) (r : Rpc)
    (rest : List Line) (h : Visit lines inl ns = .ok r rest) :
    ∀ o ∈ r.options, o.scopePath = ns ++ '.' :: r.name := by
  intro o ho
  unfold Visit visitF at h
  split at h
  · exact absurd h (by simp)
  · next out hpd =>
    obtain ⟨hopts, -⟩ := parseDecl_shape hpd
    split at h
    · obtain ⟨rfl, -⟩ := Res.ok.injEq .. ▸ h
      rw [hopts] at ho
      exact absurd ho (by simp)
    · have hpres := scan_preserve lines.length lines out ns h
      rcases scan_options lines.length lines out ns h o ho with h1 | h1
      · rw [hopts] at h1
        exact absurd h1 (by simp)
      · rw [h1, hpres.2.1]
        simp [Join, Period]

/-- Claim C9: Visit terminates on every finite line source (the fuelled
scan never runs out at the fuel Visit supplies), the shared source only
advances, and an exhausted source mid-block returns the Rpc with the
partially accumulated non-empty option flushed. -/
theorem rpc_visitor_c9 :
    (∀ (lines : List Line) (inl : Line) (ns : Str), Visit lines inl ns ≠ .timeout)
    ∧ (∀ (lines : List Line) (inl : Line) (ns : Str) (r : Rpc) (rest : List Line),
        Visit lines inl ns = .ok r rest → rest.length ≤ lines.length)
    ∧ Visit [⟨str "option (foo) = \x7b", [], Token.openBrace⟩,
        ⟨str "part1: 1", [], Token.none⟩]
        ⟨str "rpc A1(X) returns (Y) \x7b", [], Token.openBrace⟩ (str "ns")
      = .ok ⟨str "ns", str "A1", [], [NewParameter false (str "X")],
          [NewParameter false (str "Y")],
          [NewRpcOption (str "ns.A1") (str "foo") [] (str "\x7bpart1: 1")]⟩ [] := by
  refine ⟨?_, ?_, by decide⟩
  · intro lines inl ns
    unfold Visit visitF
    split
    · simp
    · split
      · simp
      · exact scanGood lines.length lines _ ns (Nat.le_refl _)
  · intro lines inl ns r rest h
    unfold Visit visitF at h
    split at h
    · exact absurd h (by simp)
    · next out hpd =>
      split at h
      · obtain ⟨-, rfl⟩ := Res.ok.injEq .. ▸ h
        exact Nat.le_refl _
      · exact scan_len lines.length lines out ns h

/-- Claim C10: CanVisit accepts a line exactly when its text contains,
anywhere as a substring, `rpc`, whitespace, a name, a nonempty
parenthesized input clause, `returns`, and a nonempty parenthesized output
clause; in particular an empty argument list is rejected while a line that
merely embeds a matching declaration (say inside a comment) is accepted. -/
theorem rpc_visitor_c10 :
    (∀ line : Line, CanVisit line = true ↔
      ∃ pre mid post, line.stx = pre ++ (mid ++ post) ∧ DeclShape mid)
    ∧ CanVisit ⟨str "rpc Name() returns (B);", [], Token.semicolon⟩ = false
    ∧ CanVisit ⟨str "// rpc Name(A) returns (B); embedded", [], Token.none⟩ = true := by
  refine ⟨?_, by decide, by decide⟩
  intro line
  constructor
  · intro h
    unfold CanVisit at h
    obtain ⟨g, hg⟩ := Option.isSome_iff_exists.1 h
    obtain ⟨pre, s', hsplit, hm⟩ := findFrom_sound hg
    obtain ⟨mid, post, hmp, hds⟩ := matchAt_sound hm
    exact ⟨pre, mid, post, by rw [hsplit, hmp], hds⟩
  · rintro ⟨pre, mid, post, hstx, ws1, name, ws2, inA, ws3, ws4, outA, hmid,
      hw1, hw1s, hn, hns, hw2s, hin, hins, hw3, hw3s, hw4s, hout, houts⟩
    have hm := matchAt_shape ws1 name ws2 inA ws3 ws4 outA post hw1 hw1s hn hns hw2s
      hin (fun c hc => notCloseParen_iff.2 (hins c hc)) hw3 hw3s hw4s hout
      (fun c hc => notCloseParen_iff.2 (houts c hc))
    have heq : mid ++ post = rpcKw ++ (ws1 ++ (name ++ (ws2 ++ ('(' :: (inA ++
        (')' :: (ws3 ++ (returnsKw ++ (ws4 ++ ('(' :: (outA ++
        (')' :: post)))))))))))) := by
      rw [hmid]
      simp [List.append_assoc]
    unfold CanVisit
    rw [hstx, heq]
    exact findFrom_isSome hm

/-- Claim C1: when the inner option-accumulation loop pulls a line whose
trimmed text begins with `rpc` (or `message`, `service`), it stops there;
Visit then flushes a non-empty accumulated option, lets a fresh recognizer
re-inspect the pulled line (recursing on the shared source exactly when
the matcher accepts it, the recursive result being discarded), and returns
the current Rpc without error. -/
theorem rpc_visitor_c1 :
    (∀ (rest : List Line) (body : Str) (bc : Int) (l : Line),
      goStartsWith (TrimSpace l.stx) rpcKw = true →
      accumulate (l :: rest) body bc = .deleg body l rest)
    ∧ Visit [⟨str "option (foo) = \x7b", [], Token.openBrace⟩,
        ⟨str "bar: 1", [], Token.none⟩,
        ⟨str "rpc A2(P) returns (Q) \x7b", [], Token.openBrace⟩,
        ⟨str "\x7d", [], Token.closeBrace⟩]
        ⟨str "rpc A1(X) returns (Y) \x7b", [], Token.openBrace⟩ (str "ns")
      = .ok ⟨str "ns", str "A1", [], [NewParameter false (str "X")],
          [NewParameter false (str "Y")],
          [NewRpcOption (str "ns.A1") (str "foo") [] (str "\x7bbar: 1")]⟩ []
    ∧ Visit [⟨str "option (foo) = \x7b", [], Token.openBrace⟩,
        ⟨str "message M \x7b", [], Token.openBrace⟩,
        ⟨str "x", [], Token.none⟩]
        ⟨str "rpc A1(X) returns (Y) \x7b", [], Token.openBrace⟩ (str "ns")
      = .ok ⟨str "ns", str "A1", [], [NewParameter false (str "X")],
          [NewParameter false (str "Y")],
          [NewRpcOption (str "ns.A1") (str "foo") [] (str "\x7b")]⟩
          [⟨str "x", [], Token.none⟩]
    ∧ Visit [⟨str "option (foo)", [], Token.none⟩,
        ⟨str "rpc A2(P) returns (Q);", [], Token.semicolon⟩]
        ⟨str "rpc A1(X) returns (Y) \x7b", [], Token.openBrace⟩ (str "ns")
      = .ok ⟨str "ns", str "A1", [], [NewParameter false (str "X")],
          [NewParameter false (str "Y")], []⟩ [] := by
  refine ⟨?_, by decide, by decide, by decide⟩
  intro rest body bc l h
  unfold accumulate
  rw [h]
  simp

/-- Claim C2: a multi-line option with nested braces accumulates into a
single RpcOption whose body contains both the `post:` and the `body:`
fragments; a statement-end line at nonzero brace depth does not end the
accumulation, only the statement-end line back at depth zero does. -/
theorem rpc_visitor_c2 :
    Visit [⟨str "option (google.api.http) = \x7b", [], Token.openBrace⟩,
        ⟨str "post: \"/v1/x\";", [], Token.semicolon⟩,
        ⟨str "body: \"*\"", [], Token.none⟩,
        ⟨str "\x7d;", [], Token.semicolon⟩,
        ⟨str "\x7d", [], Token.closeBrace⟩]
        ⟨str "rpc Name(X) returns (Y) \x7b", [], Token.openBrace⟩ (str "ns")
      = .ok ⟨str "ns", str "Name", [], [NewParameter false (str "X")],
          [NewParameter false (str "Y")],
          [NewRpcOption (str "ns.Name") (str "google.api.http") []
            (str "\x7bpost: \"/v1/x\";body: \"*\"\x7d;")]⟩ []
    ∧ hasSub (str "\x7bpost: \"/v1/x\";body: \"*\"\x7d;") (str "post:") = true
    ∧ hasSub (str "\x7bpost: \"/v1/x\";body: \"*\"\x7d;") (str "body:") = true
    ∧ accumulate [⟨str "post: \"/v1/x\";", [], Token.semicolon⟩,
        ⟨str "body: \"*\"", [], Token.none⟩,
        ⟨str "\x7d;", [], Token.semicolon⟩,
        ⟨str "\x7d", [], Token.closeBrace⟩] (str "\x7b") 1
      = .fin (str "\x7bpost: \"/v1/x\";body: \"*\"\x7d;")
          [⟨str "\x7d", [], Token.closeBrace⟩] := by
  exact ⟨by decide, by decide, by decide, by decide⟩

/-- Claim C3 counterexample: for `rpc Name(A, stream B) returns (C, D);`
(a space after the comma) the second input parameter is produced
non-streaming with type name `stream B`, not streaming with type `B` as
the claim states, because the `stream` prefix is tested before trimming. -/
theorem rpc_visitor_c3_counterexample :
    Visit [] ⟨str "rpc Name(A, stream B) returns (C, D);", [], Token.semicolon⟩ (str "ns")
      = .ok ⟨str "ns", str "Name", [],
          [NewParameter false (str "A"), NewParameter false (str "stream B")],
          [NewParameter false (str "C"), NewParameter false (str "D")], []⟩ []
    ∧ [NewParameter false (str "A"), NewParameter false (str "stream B")]
        ≠ [NewParameter false (str "A"), NewParameter true (str "B")] := by
  exact ⟨by decide, by decide⟩

/-- Claim C3 (amended): each comma-separated segment is tested for the
literal prefix `stream` before any trimming, so
`rpc Name(A,stream B) returns (C, D);` (no space after the comma) yields
inputs [A non-streaming, B streaming] and outputs [C, D non-streaming] in
declaration order, while with a space after the comma the second segment
becomes a non-streaming parameter whose type name is the trimmed segment
`stream B`. -/
theorem rpc_visitor_c3 :
    Visit [] ⟨str "rpc Name(A,stream B) returns (C, D);", [], Token.semicolon⟩ (str "ns")
      = .ok ⟨str "ns", str "Name", [],
          [NewParameter false (str "A"), NewParameter true (str "B")],
          [NewParameter false (str "C"), NewParameter false (str "D")], []⟩ []
    ∧ Visit [] ⟨str "rpc Name(A, stream B) returns (C, D);", [], Token.semicolon⟩ (str "ns")
      = .ok ⟨str "ns", str "Name", [],
          [NewParameter false (str "A"), NewParameter false (str "stream B")],
          [NewParameter false (str "C"), NewParameter false (str "D")], []⟩ [] := by
  exact ⟨by decide, by decide⟩

/-- Claim C4 counterexample: on the single-line option
`option (a) = \x7bx=y\x7d;`, which contains two `=` characters, the code's
initial accumulator is `\x7bx` (the text between the first and second `=`)
with brace counter 1, not the text after the first `=` with counter 0 as
the claim states. -/
theorem rpc_visitor_c4_counterexample :
    initOption (str "option (a) = \x7bx=y\x7d;") = (str "\x7bx", 1)
    ∧ specInitOption (str "option (a) = \x7bx=y\x7d;") = (str "\x7bx=y\x7d;", 0)
    ∧ initOption (str "option (a) = \x7bx=y\x7d;")
        ≠ specInitOption (str "option (a) = \x7bx=y\x7d;") := by
  exact ⟨by decide, by decide, by decide⟩

/-- Claim C4 (amended): for every option line containing an `=`, the
initial option-body accumulator is the trimmed text strictly between the
first and the second `=` (the whole tail after the first `=` when there is
exactly one), and the brace counter counts `\x7b`/`\x7d` in that text. -/
theorem rpc_visitor_c4 : ∀ s : Str, s.contains '=' = true →
    initOption s = specInitOptionBetween s := by
  intro s hc
  have h1 := split_decomp '=' s
  rw [if_pos hc] at h1
  have h2 := split_decomp '=' ((s.dropWhile (neChar '=')).drop 1)
  unfold initOption
  rw [if_pos hc, h1, h2]
  rfl

theorem rpc_visitor_c4_witness :
    initOption (str "option (a) = 1;") = specInitOptionBetween (str "option (a) = 1;") :=
  rpc_visitor_c4 (str "option (a) = 1;") (by decide)

/-- Claim C5 (code bug): the claim says Visit never fails hard for a line
accepted by CanVisit, but a parameter segment beginning with `stream` and
containing no space makes ParseInArgs slice with index `-1` (a Go panic),
and an option line without parentheses makes the option-name slice panic. -/
theorem rpc_visitor_c5 :
    CanVisit ⟨str "rpc N(streamX) returns (B);", [], Token.semicolon⟩ = true
    ∧ Visit [] ⟨str "rpc N(streamX) returns (B);", [], Token.semicolon⟩ (str "") = .panic
    ∧ Visit [⟨str "option x = 1;", [], Token.semicolon⟩]
        ⟨str "rpc N(A) returns (B) \x7b", [], Token.openBrace⟩ (str "") = .panic := by
  exact ⟨by decide, by decide, by decide⟩

theorem rpc_visitor_c1_witness :
    accumulate [⟨str "rpc X(A) returns (B);", [], Token.semicolon⟩] [] 0
      = .deleg [] ⟨str "rpc X(A) returns (B);", [], Token.semicolon⟩ [] :=
  rpc_visitor_c1.1 [] [] 0 ⟨str "rpc X(A) returns (B);", [], Token.semicolon⟩ (by decide)

theorem rpc_visitor_c6_witness :
    Visit [] ⟨rpcKw ++ ([' '] ++ ((str "Name") ++ (([] : Str) ++ ('(' :: ((str "A") ++ (')' :: ([' '] ++ (returnsKw ++ ([' '] ++ ('(' :: ((str "B") ++ (')' :: [';'])))))))))))), [], Token.semicolon⟩ (str "")
      = .ok ⟨str "", str "Name", [], [NewParameter false (str "A")],
          [NewParameter false (str "B")], []⟩ [] :=
  rpc_visitor_c6 (str "Name") (str "A") (str "B") (str "") [] []
    (by decide) (by decide) (by decide) (by decide) (by decide)
    (by decide) (by decide) (by decide)

theorem rpc_visitor_c7_witness :
    (Rpc.mk (str "") (str "N") [] [NewParameter true (str "A")]
      [NewParameter false (str "B")] []).inputParameters
      = [NewParameter true (str "A")] :=
  rpc_visitor_c7 (str "N") (str "A") (str "B") (str "") []
    (by decide) (by decide) (by decide) (by decide) (by decide) (by decide) (by decide)
    [⟨['\x7d'], [], Token.closeBrace⟩]
    ⟨str "", str "N", [], [NewParameter true (str "A")], [NewParameter false (str "B")], []⟩
    [] (by decide)

theorem rpc_visitor_c8_witness :
    (NewRpcOption (str "ns.A1") (str "foo") [] (str "\x7bpart1: 1")).scopePath
      = str "ns" ++ '.' :: str "A1" :=
  rpc_visitor_c8
    [⟨str "option (foo) = \x7b", [], Token.openBrace⟩, ⟨str "part1: 1", [], Token.none⟩]
    ⟨str "rpc A1(X) returns (Y) \x7b", [], Token.openBrace⟩ (str "ns")
    ⟨str "ns", str "A1", [], [NewParameter false (str "X")], [NewParameter false (str "Y")],
      [NewRpcOption (str "ns.A1") (str "foo") [] (str "\x7bpart1: 1")]⟩ []
    (by decide) (NewRpcOption (str "ns.A1") (str "foo") [] (str "\x7bpart1: 1")) (by decide)

theorem rpc_visitor_c9_witness :
    Visit [] ⟨str "rpc A(X) returns (Y);", [], Token.semicolon⟩ (str "") ≠ .timeout
    ∧ ([] : List Line).length ≤ ([] : List Line).length :=
  ⟨rpc_visitor_c9.1 [] ⟨str "rpc A(X) returns (Y);", [], Token.semicolon⟩ (str ""),
   rpc_visitor_c9.2.1 [] ⟨str "rpc A(X) returns (Y);", [], Token.semicolon⟩ (str "")
     ⟨str "", str "A", [], [NewParameter false (str "X")], [NewParameter false (str "Y")], []⟩
     [] (by decide)⟩

theorem rpc_visitor_c10_witness :
    CanVisit ⟨str "rpc M(X) returns (Y);", [], Token.semicolon⟩ = true :=
  (rpc_visitor_c10.1 ⟨str "rpc M(X) returns (Y);", [], Token.semicolon⟩).2
    ⟨[], str "rpc M(X) returns (Y)", [';'], by decide,
     [' '], str "M", [], str "X", [' '], [' '], str "Y",
     by decide, by decide, by decide, by decide, by decide, by decide, by decide,
     by decide, by decide, by decide, by decide, by decide, by decide⟩
